import Mathlib

/-!
Shallow embedding of `cache.go` from the `ttlcache` repository: a synchronised
map of string keys to TTL-carrying items, swept periodically, with expired
payloads published onto a bounded notification channel that drops its oldest
element when full.

Timestamps and durations are modelled as integers (Go `time.Duration`
nanoseconds).  The Go map is modelled as an association list (Go map states
have unique keys; theorems that need this take a `Nodup` hypothesis on the key
list).  The buffered channel `FinishedItems` is modelled as a FIFO list whose
head is the oldest element: `<-ch` takes the head, `ch <- x` appends at the
end.  The clock reading `time.Now()` taken inside an operation becomes an
explicit `now : Int` argument.
-/

namespace TTLCacheModel

/-- Modelled from the spec: the `Item` record of the data model (its source
file is not among the provided sources; `cache.go` only uses it).  It stores
one payload `data` and the absolute timestamp `expiresAt` after which the item
is considered stale. -/
structure Item where
  data : String
  expiresAt : Int
deriving DecidableEq, Repr

/-- Modelled from the spec: `touch` refreshes the expiry horizon to
`now + ttl`. -/
def Item.touch (item : Item) (ttl now : Int) : Item :=
  { item with expiresAt := now + ttl }

/-- Modelled from the spec: an item is expired exactly when `now > expiresAt`. -/
def Item.expired (item : Item) (now : Int) : Bool :=
  decide (now > item.expiresAt)

/-- Association-list lookup: the Go map read `item, exists := cache.items[key]`. -/
def alistLookup {α : Type} : List (String × α) → String → Option α
  | [], _ => none
  | (k', v) :: rest, k => if k' = k then some v else alistLookup rest k

/-- Association-list insert-or-overwrite: the Go map write
`cache.items[key] = item`. -/
def alistInsert {α : Type} : List (String × α) → String → α → List (String × α)
  | [], k, v => [(k, v)]
  | (k', v') :: rest, k, v =>
    if k' = k then (k, v) :: rest else (k', v') :: alistInsert rest k v

/-- Association-list removal: the Go builtin `delete(cache.items, key)`. -/
def alistDelete {α : Type} : List (String × α) → String → List (String × α)
  | [], _ => []
  | (k', v') :: rest, k =>
    if k' = k then alistDelete rest k else (k', v') :: alistDelete rest k

/-- The `Cache` struct of `cache.go`: the fixed TTL, the key-to-item mapping,
the channel capacity `Length`, and the notification channel `FinishedItems`. -/
structure Cache where
  ttl : Int
  items : List (String × Item)
  Length : Nat
  FinishedItems : List String
deriving DecidableEq, Repr

/-- `Set` from `cache.go`: build a fresh item from the payload, touch it, and
store it under the key (insert or overwrite). -/
def Cache.Set (cache : Cache) (key data : String) (now : Int) : Cache :=
  { cache with items := alistInsert cache.items key ((Item.mk data 0).touch cache.ttl now) }

/-- `Get` from `cache.go`: a missing or expired entry yields `("", false)` with
no mutation; a live entry is touched and its payload returned.  The result is
`(data, found, state after the call)`. -/
def Cache.Get (cache : Cache) (key : String) (now : Int) : String × Bool × Cache :=
  match alistLookup cache.items key with
  | none => ("", false, cache)
  | some item =>
    if item.expired now then ("", false, cache)
    else (item.data, true,
      { cache with items := alistInsert cache.items key (item.touch cache.ttl now) })

/-- `Delete` from `cache.go`: unconditional removal. -/
def Cache.Delete (cache : Cache) (key : String) : Cache :=
  { cache with items := alistDelete cache.items key }

/-- `Count` from `cache.go`: `len(cache.items)`. -/
def Cache.Count (cache : Cache) : Nat :=
  cache.items.length

/-- One channel publish of `cleanup`: when the channel is full
(`len(cache.FinishedItems) == cache.Length`) the oldest element is received and
dropped, then the payload is sent. -/
def pushFinished (queue : List String) (capacity : Nat) (data : String) : List String :=
  (if queue.length = capacity then queue.tail else queue) ++ [data]

/-- The body of the `cleanup` range loop for one entry of the snapshot. -/
def Cache.cleanupStep (cache : Cache) (now : Int) (entry : String × Item) : Cache :=
  if entry.2.expired now then
    { cache with
        items := alistDelete cache.items entry.1,
        FinishedItems := pushFinished cache.FinishedItems cache.Length entry.2.data }
  else cache

/-- `cleanup` from `cache.go`: scan every entry of the mapping; each expired
entry is deleted and its payload published.  The Go `range` order over a map is
unspecified; the model scans in list order, and the proved properties are
order-independent. -/
def Cache.cleanup (cache : Cache) (now : Int) : Cache :=
  cache.items.foldl (fun acc entry => acc.cleanupStep now entry) cache

/-- One second, in the nanoseconds of Go `time.Duration`. -/
def second : Int := 1000000000

/-- The sweep interval computed by `startCleanupTimer`: the configured TTL,
floored at one second. -/
def cleanupInterval (ttl : Int) : Int :=
  if ttl < second then second else ttl

/-- `NewCache` from `cache.go`: empty mapping, the given TTL, `Length = 10`,
and an empty buffered channel of capacity `Length`. -/
def NewCache (duration : Int) : Cache :=
  { ttl := duration, items := [], Length := 10, FinishedItems := [] }

/-- Sequential publishes onto the bounded channel, oldest dropped when full. -/
def pushAll (queue : List String) (capacity : Nat) (payloads : List String) : List String :=
  payloads.foldl (fun q p => pushFinished q capacity p) queue

/-- A client or sweep operation together with the clock reading at which it
runs. -/
inductive Op where
  | set (key data : String) (now : Int)
  | get (key : String) (now : Int)
  | del (key : String)
  | sweep (now : Int)
deriving DecidableEq, Repr

/-- The state transition of one operation. -/
def Cache.step (cache : Cache) : Op → Cache
  | .set k v t => cache.Set k v t
  | .get k t => (cache.Get k t).2.2
  | .del k => cache.Delete k
  | .sweep t => cache.cleanup t

/-- The clock reading carried by an operation. -/
def Op.time : Op → Option Int
  | .set _ _ t => some t
  | .get _ t => some t
  | .del _ => none
  | .sweep _ => none

/-- Whether the operation touches the given key in the given state: a `Set` of
the key, or a `Get` of the key that hits. -/
def Op.touchesKey (op : Op) (cache : Cache) (k : String) : Bool :=
  match op with
  | .set k' _ _ => decide (k' = k)
  | .get k' t => decide (k' = k) && (cache.Get k' t).2.1
  | .del _ => false
  | .sweep _ => false

/-- Ghost bookkeeping: the last-touch time of every key, updated alongside a
step. -/
def stepTouches (cache : Cache) (op : Op) (tm : List (String × Int)) : List (String × Int) :=
  match op with
  | .set k _ t => alistInsert tm k t
  | .get k t => if (cache.Get k t).2.1 then alistInsert tm k t else tm
  | .del _ => tm
  | .sweep _ => tm

/-- Run a trace of operations, carrying the ghost last-touch map. -/
def runAnnot : Cache → List (String × Int) → List Op → Cache × List (String × Int)
  | c, tm, [] => (c, tm)
  | c, tm, op :: ops => runAnnot (c.step op) (stepTouches c op tm) ops

/-- The touch invariant: every stored item expires exactly `ttl` after its last
touch. -/
def TouchInv (cache : Cache) (tm : List (String × Int)) : Prop :=
  ∀ k it, alistLookup cache.items k = some it →
    ∃ t, alistLookup tm k = some t ∧ it.expiresAt = t + cache.ttl

/-! ### Association-list lemmas -/

theorem alistLookup_insert_self {α : Type} (m : List (String × α)) (k : String) (v : α) :
    alistLookup (alistInsert m k v) k = some v := by
  induction m with
  | nil => simp [alistInsert, alistLookup]
  | cons e rest ih =>
    obtain ⟨k', v'⟩ := e
    by_cases h : k' = k
    · simp [alistInsert, alistLookup, h]
    · simp [alistInsert, alistLookup, h, ih]

theorem alistLookup_insert_ne {α : Type} (m : List (String × α)) (k k₀ : String) (v : α)
    (h : k₀ ≠ k) : alistLookup (alistInsert m k v) k₀ = alistLookup m k₀ := by
  induction m with
  | nil => simp [alistInsert, alistLookup, Ne.symm h]
  | cons e rest ih =>
    obtain ⟨k', v'⟩ := e
    by_cases hk : k' = k
    · subst hk
      simp [alistInsert, alistLookup, Ne.symm h]
    · simp only [alistInsert, if_neg hk]
      by_cases hk₀ : k' = k₀
      · simp [alistLookup, hk₀]
      · simp [alistLookup, hk₀, ih]

theorem alistDelete_eq_filter {α : Type} (m : List (String × α)) (k : String) :
    alistDelete m k = m.filter (fun e => !(decide (e.1 = k))) := by
  induction m with
  | nil => simp [alistDelete]
  | cons e rest ih =>
    obtain ⟨k', v'⟩ := e
    by_cases h : k' = k
    · simp [alistDelete, h, ih, List.filter]
    · simp [alistDelete, h, ih, List.filter]

theorem alistLookup_delete_self {α : Type} (m : List (String × α)) (k : String) :
    alistLookup (alistDelete m k) k = none := by
  induction m with
  | nil => simp [alistDelete, alistLookup]
  | cons e rest ih =>
    obtain ⟨k', v'⟩ := e
    by_cases h : k' = k
    · simp [alistDelete, h, ih]
    · simp [alistDelete, alistLookup, h, ih]

theorem alistLookup_delete_ne {α : Type} (m : List (String × α)) (k k₀ : String)
    (h : k₀ ≠ k) : alistLookup (alistDelete m k) k₀ = alistLookup m k₀ := by
  induction m with
  | nil => simp [alistDelete]
  | cons e rest ih =>
    obtain ⟨k', v'⟩ := e
    by_cases hk : k' = k
    · subst hk
      simp [alistDelete, alistLookup, Ne.symm h, ih]
    · simp only [alistDelete, if_neg hk]
      by_cases hk₀ : k' = k₀
      · simp [alistLookup, hk₀]
      · simp [alistLookup, hk₀, ih]

theorem alistDelete_of_lookup_none {α : Type} (m : List (String × α)) (k : String)
    (h : alistLookup m k = none) : alistDelete m k = m := by
  induction m with
  | nil => simp [alistDelete]
  | cons e rest ih =>
    obtain ⟨k', v'⟩ := e
    by_cases hk : k' = k
    · simp [alistLookup, hk] at h
    · simp only [alistLookup, if_neg hk] at h
      simp [alistDelete, hk, ih h]

theorem alistDelete_idem {α : Type} (m : List (String × α)) (k : String) :
    alistDelete (alistDelete m k) k = alistDelete m k :=
  alistDelete_of_lookup_none _ _ (alistLookup_delete_self m k)

theorem length_alistInsert_of_lookup_some {α : Type} (m : List (String × α)) (k : String)
    (v w : α) (h : alistLookup m k = some w) :
    (alistInsert m k v).length = m.length := by
  induction m with
  | nil => simp [alistLookup] at h
  | cons e rest ih =>
    obtain ⟨k', v'⟩ := e
    by_cases hk : k' = k
    · simp [alistInsert, hk]
    · simp only [alistLookup, if_neg hk] at h
      simp [alistInsert, hk, ih h]

theorem alistLookup_mem {α : Type} (m : List (String × α)) (k : String) (v : α)
    (h : alistLookup m k = some v) : (k, v) ∈ m := by
  induction m with
  | nil => simp [alistLookup] at h
  | cons e rest ih =>
    obtain ⟨k', v'⟩ := e
    by_cases hk : k' = k
    · subst hk
      simp [alistLookup] at h
      simp [h]
    · simp only [alistLookup, if_neg hk] at h
      exact List.mem_cons_of_mem _ (ih h)

theorem alistLookup_of_mem_nodup {α : Type} (m : List (String × α)) (k : String) (v : α)
    (hnd : (m.map Prod.fst).Nodup) (h : (k, v) ∈ m) : alistLookup m k = some v := by
  induction m with
  | nil => simp at h
  | cons e rest ih =>
    obtain ⟨k', v'⟩ := e
    simp only [List.map_cons, List.nodup_cons] at hnd
    rcases List.mem_cons.mp h with h₁ | h₂
    · injection h₁ with hk hv
      subst hk
      subst hv
      simp [alistLookup]
    · have hne : k' ≠ k := by
        intro hk
        exact hnd.1 (List.mem_map.mpr ⟨(k, v), h₂, hk.symm⟩)
      simp only [alistLookup, if_neg hne]
      exact ih hnd.2 h₂

theorem nodup_keys_eq_of_mem {α : Type} (m : List (String × α)) (x y : String × α)
    (hnd : (m.map Prod.fst).Nodup) (hx : x ∈ m) (hy : y ∈ m) (hk : x.1 = y.1) : x = y := by
  induction m with
  | nil => simp at hx
  | cons e rest ih =>
    simp only [List.map_cons, List.nodup_cons] at hnd
    rcases List.mem_cons.mp hx with hx₁ | hx₂ <;> rcases List.mem_cons.mp hy with hy₁ | hy₂
    · rw [hx₁, hy₁]
    · exact absurd (List.mem_map.mpr ⟨y, hy₂, (hx₁ ▸ hk).symm⟩) hnd.1
    · exact absurd (List.mem_map.mpr ⟨x, hx₂, hy₁ ▸ hk⟩) hnd.1
    · exact ih hnd.2 hx₂ hy₂

theorem mem_alistInsert {α : Type} (m : List (String × α)) (k : String) (v : α)
    (x : String × α) (h : x ∈ alistInsert m k v) : x = (k, v) ∨ x ∈ m := by
  induction m with
  | nil =>
    simp [alistInsert] at h
    exact Or.inl h
  | cons e rest ih =>
    obtain ⟨k', v'⟩ := e
    by_cases hk : k' = k
    · simp only [alistInsert, if_pos hk] at h
      rcases List.mem_cons.mp h with h₁ | h₂
      · exact Or.inl h₁
      · exact Or.inr (List.mem_cons_of_mem _ h₂)
    · simp only [alistInsert, if_neg hk] at h
      rcases List.mem_cons.mp h with h₁ | h₂
      · exact Or.inr (h₁ ▸ List.mem_cons_self _ _)
      · rcases ih h₂ with h₃ | h₄
        · exact Or.inl h₃
        · exact Or.inr (List.mem_cons_of_mem _ h₄)

theorem nodup_keys_alistInsert {α : Type} (m : List (String × α)) (k : String) (v : α)
    (hnd : (m.map Prod.fst).Nodup) : ((alistInsert m k v).map Prod.fst).Nodup := by
  induction m with
  | nil => simp [alistInsert]
  | cons e rest ih =>
    obtain ⟨k', v'⟩ := e
    simp only [List.map_cons, List.nodup_cons] at hnd
    by_cases hk : k' = k
    · subst hk
      simpa [alistInsert] using hnd
    · simp only [alistInsert, if_neg hk, List.map_cons, List.nodup_cons]
      refine ⟨fun hmem => ?_, ih hnd.2⟩
      rcases List.mem_map.mp hmem with ⟨x, hmem₀, hfst⟩
      rcases mem_alistInsert rest k v x hmem₀ with hc | hc
      · rw [hc] at hfst
        exact hk (Eq.symm (show k = k' by simpa using hfst))
      · exact hnd.1 (List.mem_map.mpr ⟨x, hc, hfst⟩)

/-! ### Sweep (cleanup) characterization -/

theorem foldl_cleanupStep_ttl (now : Int) (l : List (String × Item)) (acc : Cache) :
    (l.foldl (fun a e => a.cleanupStep now e) acc).ttl = acc.ttl := by
  induction l generalizing acc with
  | nil => rfl
  | cons e rest ih =>
    rw [List.foldl_cons, ih]
    by_cases he : e.2.expired now <;> simp [Cache.cleanupStep, he]

theorem foldl_cleanupStep_Length (now : Int) (l : List (String × Item)) (acc : Cache) :
    (l.foldl (fun a e => a.cleanupStep now e) acc).Length = acc.Length := by
  induction l generalizing acc with
  | nil => rfl
  | cons e rest ih =>
    rw [List.foldl_cons, ih]
    by_cases he : e.2.expired now <;> simp [Cache.cleanupStep, he]

theorem cleanup_ttl (c : Cache) (now : Int) : (c.cleanup now).ttl = c.ttl :=
  foldl_cleanupStep_ttl now c.items c

theorem cleanup_Length (c : Cache) (now : Int) : (c.cleanup now).Length = c.Length :=
  foldl_cleanupStep_Length now c.items c

theorem foldl_cleanupStep_items (now : Int) (l : List (String × Item)) (acc : Cache) :
    (l.foldl (fun a e => a.cleanupStep now e) acc).items =
      acc.items.filter
        (fun x => !(l.any (fun y => decide (x.1 = y.1) && y.2.expired now))) := by
  induction l generalizing acc with
  | nil => simp
  | cons e rest ih =>
    rw [List.foldl_cons, ih]
    by_cases he : e.2.expired now
    · simp only [Cache.cleanupStep, he, if_pos]
      rw [alistDelete_eq_filter, List.filter_filter]
      refine List.filter_congr ?_
      intro x _
      by_cases hx : x.1 = e.1 <;> simp [hx, he]
    · simp only [Cache.cleanupStep, he, if_neg, Bool.false_eq_true, not_false_iff]
      refine (List.filter_congr ?_).symm
      intro x _
      simp [he]

theorem cleanup_items (c : Cache) (now : Int) :
    (c.cleanup now).items =
      c.items.filter
        (fun x => !(c.items.any (fun y => decide (x.1 = y.1) && y.2.expired now))) :=
  foldl_cleanupStep_items now c.items c

theorem alistLookup_filter_key {α : Type} (m : List (String × α)) (p : String → Bool)
    (k : String) :
    alistLookup (m.filter (fun x => p x.1)) k = if p k then alistLookup m k else none := by
  induction m with
  | nil => simp [alistLookup]
  | cons e rest ih =>
    obtain ⟨k', v'⟩ := e
    by_cases hp : p k'
    · by_cases hk : k' = k
      · subst hk
        simp [List.filter, alistLookup, hp]
      · simp [List.filter, alistLookup, hp, hk, ih]
    · by_cases hk : k' = k
      · subst hk
        simp [List.filter, alistLookup, hp, ih]
      · simp [List.filter, alistLookup, hp, hk, ih]

theorem cleanup_lookup (c : Cache) (now : Int) (k : String) :
    alistLookup (c.cleanup now).items k =
      if c.items.any (fun y => decide (k = y.1) && y.2.expired now) then none
      else alistLookup c.items k := by
  rw [cleanup_items c now,
    alistLookup_filter_key c.items
      (fun s => !(c.items.any (fun y => decide (s = y.1) && y.2.expired now))) k]
  cases h : c.items.any (fun y => decide (k = y.1) && y.2.expired now) <;> simp [h]

theorem cleanup_items_nodup (c : Cache) (now : Int)
    (hnd : (c.items.map Prod.fst).Nodup) :
    (c.cleanup now).items = c.items.filter (fun x => !(x.2.expired now)) := by
  rw [cleanup_items c now]
  refine List.filter_congr ?_
  intro x hx
  cases he : x.2.expired now
  · have hfalse : c.items.any (fun y => decide (x.1 = y.1) && y.2.expired now) = false := by
      rw [List.any_eq_false]
      intro y hy
      by_cases hk : x.1 = y.1
      · have hxy : x = y := nodup_keys_eq_of_mem c.items x y hnd hx hy hk
        simp [← hxy, he]
      · simp [hk]
    simp [hfalse, he]
  · have htrue : c.items.any (fun y => decide (x.1 = y.1) && y.2.expired now) = true :=
      List.any_eq_true.mpr ⟨x, hx, by simp [he]⟩
    simp [htrue, he]

theorem foldl_cleanupStep_finished (now : Int) (l : List (String × Item)) (acc : Cache) :
    (l.foldl (fun a e => a.cleanupStep now e) acc).FinishedItems =
      pushAll acc.FinishedItems acc.Length
        ((l.filter (fun e => e.2.expired now)).map (fun e => e.2.data)) := by
  induction l generalizing acc with
  | nil => rfl
  | cons e rest ih =>
    rw [List.foldl_cons, ih]
    by_cases he : e.2.expired now
    · simp only [Cache.cleanupStep, he, if_pos, List.filter_cons_of_pos, List.map_cons]
      rfl
    · have he' : e.2.expired now = false := by simpa using he
      simp only [Cache.cleanupStep, he', Bool.false_eq_true, if_neg, not_false_iff,
        List.filter_cons_of_neg]

theorem cleanup_finished (c : Cache) (now : Int) :
    (c.cleanup now).FinishedItems =
      pushAll c.FinishedItems c.Length
        ((c.items.filter (fun e => e.2.expired now)).map (fun e => e.2.data)) :=
  foldl_cleanupStep_finished now c.items c

/-! ### Bounded-queue characterization -/

theorem pushAll_eq_drop (cap : Nat) (hcap : 0 < cap) (q payloads : List String)
    (hq : q.length ≤ cap) :
    pushAll q cap payloads = (q ++ payloads).drop (q.length + payloads.length - cap) := by
  induction payloads generalizing q with
  | nil =>
    simp [pushAll, Nat.sub_eq_zero_of_le hq]
  | cons p ps ih =>
    have hstep : pushAll q cap (p :: ps) = pushAll (pushFinished q cap p) cap ps := rfl
    by_cases h : q.length = cap
    · rcases q with _ | ⟨a, q'⟩
      · exact absurd h.symm (Nat.ne_of_gt hcap)
      · have htail : pushFinished (a :: q') cap p = q' ++ [p] := by
          simp [pushFinished, h]
        have hlen : (q' ++ [p]).length = cap := by
          simpa using h
        rw [hstep, htail, ih (q' ++ [p]) (le_of_eq hlen)]
        have hidx : (q' ++ [p]).length + ps.length - cap = ps.length := by
          omega
        have hidx' : (a :: q').length + (p :: ps).length - cap = ps.length + 1 := by
          simp only [List.length_cons] at h ⊢
          omega
        rw [hidx, hidx', List.append_assoc]
        simp [List.cons_append]
    · have hlt : q.length < cap := lt_of_le_of_ne hq h
      have hpush : pushFinished q cap p = q ++ [p] := by
        simp [pushFinished, h]
      have hlen : (q ++ [p]).length ≤ cap := by
        simp only [List.length_append, List.length_cons, List.length_nil]
        omega
      rw [hstep, hpush, ih (q ++ [p]) hlen, List.append_assoc]
      have hidx : (q ++ [p]).length + ps.length - cap = q.length + (p :: ps).length - cap := by
        simp only [List.length_append, List.length_cons, List.length_nil]
        omega
      rw [hidx]
      simp [List.cons_append]

theorem pushAll_length_le (cap : Nat) (hcap : 0 < cap) (q payloads : List String)
    (hq : q.length ≤ cap) : (pushAll q cap payloads).length ≤ cap := by
  rw [pushAll_eq_drop cap hcap q payloads hq, List.length_drop]
  simp only [List.length_append]
  omega

theorem pushAll_of_many (cap : Nat) (hcap : 0 < cap) (q payloads : List String)
    (hq : q.length ≤ cap) (hmany : cap ≤ payloads.length) :
    pushAll q cap payloads = payloads.drop (payloads.length - cap) := by
  rw [pushAll_eq_drop cap hcap q payloads hq]
  have hidx : q.length + payloads.length - cap = q.length + (payloads.length - cap) := by
    omega
  rw [hidx, List.drop_append]

theorem filter_key_nil_of_not_mem {α : Type} (m : List (String × α)) (k : String)
    (h : k ∉ m.map Prod.fst) : m.filter (fun e => decide (e.1 = k)) = [] := by
  rw [List.filter_eq_nil_iff]
  intro e he
  simp only [decide_eq_true_eq]
  intro hk
  exact h (List.mem_map.mpr ⟨e, he, hk⟩)

theorem filter_key_eq_of_nodup {α : Type} (m : List (String × α)) (k : String) (v : α)
    (hnd : (m.map Prod.fst).Nodup) (h : alistLookup m k = some v) :
    m.filter (fun e => decide (e.1 = k)) = [(k, v)] := by
  induction m with
  | nil => simp [alistLookup] at h
  | cons e rest ih =>
    obtain ⟨k', v'⟩ := e
    simp only [List.map_cons, List.nodup_cons] at hnd
    by_cases hk : k' = k
    · subst hk
      have hv : v' = v := by simpa [alistLookup] using h
      subst hv
      simp [List.filter_cons, filter_key_nil_of_not_mem rest k' hnd.1]
    · simp only [alistLookup, if_neg hk] at h
      simp [List.filter_cons, hk, ih hnd.2 h]

theorem step_ttl (c : Cache) (op : Op) : (c.step op).ttl = c.ttl := by
  cases op with
  | set k v t => rfl
  | get k t =>
    rcases hl : alistLookup c.items k with _ | it
    · simp [Cache.step, Cache.Get, hl]
    · by_cases he : it.expired t <;> simp [Cache.step, Cache.Get, hl, he]
  | del k => rfl
  | sweep t => exact cleanup_ttl c t

theorem runAnnot_ttl (c : Cache) (tm : List (String × Int)) (ops : List Op) :
    (runAnnot c tm ops).1.ttl = c.ttl := by
  induction ops generalizing c tm with
  | nil => rfl
  | cons op ops ih => rw [runAnnot, ih, step_ttl]

theorem touchInv_step (c : Cache) (tm : List (String × Int)) (op : Op)
    (h : TouchInv c tm) : TouchInv (c.step op) (stepTouches c op tm) := by
  cases op with
  | set k v t =>
    intro k₀ it h₀
    have hitems : (c.step (.set k v t)).items = alistInsert c.items k ⟨v, t + c.ttl⟩ := rfl
    have htm : stepTouches c (.set k v t) tm = alistInsert tm k t := rfl
    rw [show (c.step (.set k v t)).ttl = c.ttl from rfl, htm]
    rw [hitems] at h₀
    by_cases hk : k₀ = k
    · rw [hk] at h₀ ⊢
      rw [alistLookup_insert_self] at h₀
      injection h₀ with h₁
      exact ⟨t, alistLookup_insert_self tm k t, by rw [← h₁]⟩
    · rw [alistLookup_insert_ne c.items k k₀ _ hk] at h₀
      rcases h k₀ it h₀ with ⟨t', ht', he'⟩
      exact ⟨t', by rw [alistLookup_insert_ne tm k k₀ t hk]; exact ht', he'⟩
  | get k t =>
    rcases hl : alistLookup c.items k with _ | item
    · have hstate : c.step (.get k t) = c := by simp [Cache.step, Cache.Get, hl]
      have hfound : (c.Get k t).2.1 = false := by simp [Cache.Get, hl]
      intro k₀ it h₀
      rw [hstate] at h₀
      rw [hstate, stepTouches, hfound]
      simpa using h k₀ it h₀
    · by_cases he : item.expired t
      · have hstate : c.step (.get k t) = c := by simp [Cache.step, Cache.Get, hl, he]
        have hfound : (c.Get k t).2.1 = false := by simp [Cache.Get, hl, he]
        intro k₀ it h₀
        rw [hstate] at h₀
        rw [hstate, stepTouches, hfound]
        simpa using h k₀ it h₀
      · have hstate : (c.step (.get k t)).items =
            alistInsert c.items k ⟨item.data, t + c.ttl⟩ := by
          simp [Cache.step, Cache.Get, hl, he, Item.touch]
        have hfound : (c.Get k t).2.1 = true := by simp [Cache.Get, hl, he]
        have httl : (c.step (.get k t)).ttl = c.ttl := step_ttl c _
        intro k₀ it h₀
        rw [hstate] at h₀
        rw [stepTouches, hfound, if_pos rfl, httl]
        by_cases hk : k₀ = k
        · subst hk
          rw [alistLookup_insert_self] at h₀
          injection h₀ with h₁
          exact ⟨t, alistLookup_insert_self tm k₀ t, by rw [← h₁]⟩
        · rw [alistLookup_insert_ne c.items k k₀ _ hk] at h₀
          rcases h k₀ it h₀ with ⟨t', ht', he'⟩
          exact ⟨t', by rw [alistLookup_insert_ne tm k k₀ t hk]; exact ht', he'⟩
  | del k =>
    intro k₀ it h₀
    rw [show (c.step (.del k)).items = alistDelete c.items k from rfl] at h₀
    by_cases hk : k₀ = k
    · subst hk
      rw [alistLookup_delete_self] at h₀
      exact absurd h₀ (by simp)
    · rw [alistLookup_delete_ne c.items k k₀ hk] at h₀
      exact h k₀ it h₀
  | sweep t =>
    intro k₀ it h₀
    rw [show (c.step (.sweep t)).items = (c.cleanup t).items from rfl,
      cleanup_lookup c t k₀] at h₀
    rw [show (c.step (.sweep t)).ttl = (c.cleanup t).ttl from rfl, cleanup_ttl]
    rcases hany : c.items.any (fun y => decide (k₀ = y.1) && y.2.expired t) with _ | _
    · rw [hany, if_neg (by simp)] at h₀
      exact h k₀ it h₀
    · rw [hany, if_pos rfl] at h₀
      exact absurd h₀ (by simp)

theorem touchInv_runAnnot (c : Cache) (tm : List (String × Int)) (ops : List Op)
    (h : TouchInv c tm) : TouchInv (runAnnot c tm ops).1 (runAnnot c tm ops).2 := by
  induction ops generalizing c tm with
  | nil => exact h
  | cons op ops ih => exact ih _ _ (touchInv_step c tm op h)

/-! ### The claims -/

/-- C3: for a key present with an unexpired item, `Get` refreshes the expiry to
`now + ttl` and returns the stored payload with `found = true`; in particular
after `Set k v` at `t₀`, a `Get k` at any `t₁` with `t₀ ≤ t₁ < t₀ + ttl`
returns `(v, true)` and resets the expiry horizon to `t₁ + ttl`. -/
theorem c3_get_hit_refreshes_expiry (c : Cache) (k v : String) (it : Item)
    (now t₀ t₁ : Int) (hit : alistLookup c.items k = some it)
    (hlive : it.expired now = false) (_ht₀ : t₀ ≤ t₁) (ht₁ : t₁ < t₀ + c.ttl) :
    c.Get k now = (it.data, true,
        { c with items := alistInsert c.items k ⟨it.data, now + c.ttl⟩ })
    ∧ ((c.Set k v t₀).Get k t₁).1 = v
    ∧ ((c.Set k v t₀).Get k t₁).2.1 = true
    ∧ alistLookup ((c.Set k v t₀).Get k t₁).2.2.items k = some ⟨v, t₁ + c.ttl⟩ := by
  have hset : (c.Set k v t₀).items = alistInsert c.items k ⟨v, t₀ + c.ttl⟩ := rfl
  have hlook : alistLookup (c.Set k v t₀).items k = some ⟨v, t₀ + c.ttl⟩ := by
    rw [hset]
    exact alistLookup_insert_self c.items k _
  have hnotexp : Item.expired ⟨v, t₀ + c.ttl⟩ t₁ = false := by
    simp only [Item.expired, decide_eq_false_iff_not, not_lt]
    omega
  refine ⟨?_, ?_, ?_, ?_⟩
  · simp [Cache.Get, hit, hlive, Item.touch]
  · simp [Cache.Get, hlook, hnotexp]
  · simp [Cache.Get, hlook, hnotexp]
  · have : ((c.Set k v t₀).Get k t₁).2.2.items =
        alistInsert (c.Set k v t₀).items k ⟨v, t₁ + (c.Set k v t₀).ttl⟩ := by
      simp [Cache.Get, hlook, hnotexp, Item.touch]
    rw [this, show (c.Set k v t₀).ttl = c.ttl from rfl]
    exact alistLookup_insert_self _ k _

/-- C4: `Get` on an absent key, or on a key whose item is expired
(`now > expiresAt`), returns `("", false)` and leaves the cache unchanged; an
item last touched at `t₀` is reported `found = false` at any `t₁ > t₀ + ttl`,
whether or not the sweep has run in between. -/
theorem c4_get_miss_no_mutation (c : Cache) (k d : String) (now t₀ t₁ t₂ : Int) :
    (alistLookup c.items k = none → c.Get k now = ("", false, c))
    ∧ (∀ it, alistLookup c.items k = some it → it.expired now = true →
        c.Get k now = ("", false, c))
    ∧ (alistLookup c.items k = some ⟨d, t₀ + c.ttl⟩ → t₀ + c.ttl < t₁ →
        (c.Get k t₁).2.1 = false ∧ ((c.cleanup t₂).Get k t₁).2.1 = false) := by
  refine ⟨?_, ?_, ?_⟩
  · intro habs
    simp [Cache.Get, habs]
  · intro it hit hexp
    simp [Cache.Get, hit, hexp]
  · intro hit hlate
    have hexp : Item.expired ⟨d, t₀ + c.ttl⟩ t₁ = true := by
      simp only [Item.expired, decide_eq_true_eq]
      omega
    constructor
    · simp [Cache.Get, hit, hexp]
    · rw [show ((c.cleanup t₂).Get k t₁) =
          Cache.Get (c.cleanup t₂) k t₁ from rfl]
      rcases hany : c.items.any (fun y => decide (k = y.1) && y.2.expired t₂) with _ | _
      · have hl : alistLookup (c.cleanup t₂).items k = some ⟨d, t₀ + c.ttl⟩ := by
          rw [cleanup_lookup c t₂ k, hany, if_neg (by simp)]
          exact hit
        simp [Cache.Get, hl, hexp]
      · have hl : alistLookup (c.cleanup t₂).items k = none := by
          rw [cleanup_lookup c t₂ k, hany, if_pos rfl]
        simp [Cache.Get, hl]

/-- C6: `Set` always succeeds, inserting or overwriting the entry with
`expiresAt = now + ttl`, without touching the notification queue; overwriting
`Set k v₁` with `Set k v₂` leaves exactly one entry for `k`, holding `v₂`, and
does not change `Count`. -/
theorem c6_set_insert_overwrite (c : Cache) (k v v₁ v₂ : String) (t t₁ t₂ : Int)
    (hnd : (c.items.map Prod.fst).Nodup) :
    alistLookup (c.Set k v t).items k = some ⟨v, t + c.ttl⟩
    ∧ (∀ k₀, k₀ ≠ k → alistLookup (c.Set k v t).items k₀ = alistLookup c.items k₀)
    ∧ (c.Set k v t).FinishedItems = c.FinishedItems
    ∧ alistLookup ((c.Set k v₁ t₁).Set k v₂ t₂).items k = some ⟨v₂, t₂ + c.ttl⟩
    ∧ ((c.Set k v₁ t₁).Set k v₂ t₂).items.filter (fun e => decide (e.1 = k)) =
        [(k, ⟨v₂, t₂ + c.ttl⟩)]
    ∧ ((c.Set k v₁ t₁).Set k v₂ t₂).Count = (c.Set k v₁ t₁).Count := by
  have hset : ∀ (c' : Cache) (v' : String) (t' : Int),
      (c'.Set k v' t').items = alistInsert c'.items k ⟨v', t' + c'.ttl⟩ :=
    fun _ _ _ => rfl
  have httl : (c.Set k v₁ t₁).ttl = c.ttl := rfl
  have hlook₂ : alistLookup ((c.Set k v₁ t₁).Set k v₂ t₂).items k =
      some ⟨v₂, t₂ + c.ttl⟩ := by
    rw [hset, httl]
    exact alistLookup_insert_self _ k _
  refine ⟨?_, ?_, rfl, hlook₂, ?_, ?_⟩
  · rw [hset]
    exact alistLookup_insert_self c.items k _
  · intro k₀ hk
    rw [hset]
    exact alistLookup_insert_ne c.items k k₀ _ hk
  · have hnd₁ : (((c.Set k v₁ t₁).items).map Prod.fst).Nodup := by
      rw [hset]
      exact nodup_keys_alistInsert c.items k _ hnd
    have hnd₂ : ((((c.Set k v₁ t₁).Set k v₂ t₂).items).map Prod.fst).Nodup := by
      rw [hset]
      exact nodup_keys_alistInsert _ k _ hnd₁
    exact filter_key_eq_of_nodup _ k _ hnd₂ hlook₂
  · have hlook₁ : alistLookup (c.Set k v₁ t₁).items k = some ⟨v₁, t₁ + c.ttl⟩ := by
      rw [hset]
      exact alistLookup_insert_self c.items k _
    rw [show ((c.Set k v₁ t₁).Set k v₂ t₂).Count =
        (alistInsert (c.Set k v₁ t₁).items k ⟨v₂, t₂ + c.ttl⟩).length from rfl]
    exact length_alistInsert_of_lookup_some _ k _ _ hlook₁

/-- C7: `Count` returns the exact number of entries in the mapping, counting
expired-but-unswept entries too, and mutates nothing (it is a pure function of
the state). -/
theorem c7_count_exact (c : Cache) (now : Int) :
    c.Count = c.items.length
    ∧ c.Count = (c.items.filter (fun e => e.2.expired now)).length +
        (c.items.filter (fun e => !(e.2.expired now))).length := by
  refine ⟨rfl, ?_⟩
  rw [show c.Count = c.items.length from rfl]
  exact List.length_eq_length_filter_add _

/-- C8: `NewCache` builds a cache with an empty mapping, the given TTL, a
notification queue of capacity 10, and a sweep interval equal to the TTL
floored at one second, so that a zero or negative TTL does not busy-loop. -/
theorem c8_construct_interval_floor (ttl : Int) :
    (NewCache ttl).items = []
    ∧ (NewCache ttl).ttl = ttl
    ∧ (NewCache ttl).Length = 10
    ∧ (NewCache ttl).FinishedItems = []
    ∧ (NewCache ttl).Count = 0
    ∧ cleanupInterval ttl = max ttl second
    ∧ second ≤ cleanupInterval ttl := by
  refine ⟨rfl, rfl, rfl, rfl, rfl, ?_, ?_⟩
  · by_cases h : ttl < second
    · rw [cleanupInterval, if_pos h, max_eq_right (le_of_lt h)]
    · rw [cleanupInterval, if_neg h, max_eq_left (le_of_not_lt h)]
  · by_cases h : ttl < second
    · rw [cleanupInterval, if_pos h]
    · rw [cleanupInterval, if_neg h]
      exact le_of_not_lt h

/-- C9: `Delete` removes the entry unconditionally and always succeeds; on an
absent key it is a no-op (state and `Count` unchanged), and deleting twice
equals deleting once. -/
theorem c9_delete_idempotent (c : Cache) (k : String) :
    alistLookup (c.Delete k).items k = none
    ∧ (∀ k₀, k₀ ≠ k → alistLookup (c.Delete k).items k₀ = alistLookup c.items k₀)
    ∧ (c.Delete k).Delete k = c.Delete k
    ∧ (alistLookup c.items k = none → c.Delete k = c ∧ (c.Delete k).Count = c.Count) := by
  refine ⟨alistLookup_delete_self c.items k, ?_, ?_, ?_⟩
  · intro k₀ hk
    exact alistLookup_delete_ne c.items k k₀ hk
  · simp [Cache.Delete, alistDelete_idem]
  · intro habs
    have hitems : alistDelete c.items k = c.items := alistDelete_of_lookup_none c.items k habs
    constructor
    · rw [Cache.Delete, hitems]
    · rw [show (c.Delete k).Count = (alistDelete c.items k).length from rfl, hitems]
      rfl

/-- C10: `Delete` never publishes the removed payload: the notification queue is
untouched by `Delete`, as it is by `Set` and by `Get`; only the sweep changes it. -/
theorem c10_delete_no_notification (c : Cache) (k v : String) (now : Int) :
    (c.Delete k).FinishedItems = c.FinishedItems
    ∧ (c.Set k v now).FinishedItems = c.FinishedItems
    ∧ ((c.Get k now).2.2).FinishedItems = c.FinishedItems := by
  refine ⟨rfl, rfl, ?_⟩
  rcases hl : alistLookup c.items k with _ | it
  · simp [Cache.Get, hl]
  · by_cases he : it.expired now <;> simp [Cache.Get, hl, he]

/-- C1: a single sweep run removes exactly the expired entries: every expired
key is deleted from the mapping with its payload published onto the bounded
queue, every unexpired entry remains unchanged, and afterwards `Count` counts
only the unexpired keys. -/
theorem c1_sweep_removes_expired (c : Cache) (now : Int)
    (hnd : (c.items.map Prod.fst).Nodup) :
    (c.cleanup now).items = c.items.filter (fun e => !(e.2.expired now))
    ∧ (∀ k it, alistLookup c.items k = some it → it.expired now = true →
        alistLookup (c.cleanup now).items k = none)
    ∧ (∀ k it, alistLookup c.items k = some it → it.expired now = false →
        alistLookup (c.cleanup now).items k = some it)
    ∧ (c.cleanup now).FinishedItems =
        pushAll c.FinishedItems c.Length
          ((c.items.filter (fun e => e.2.expired now)).map (fun e => e.2.data))
    ∧ (c.cleanup now).Count = (c.items.filter (fun e => !(e.2.expired now))).length := by
  have hitems := cleanup_items_nodup c now hnd
  refine ⟨hitems, ?_, ?_, cleanup_finished c now, ?_⟩
  · intro k it hit hexp
    have hany : c.items.any (fun y => decide (k = y.1) && y.2.expired now) = true :=
      List.any_eq_true.mpr ⟨(k, it), alistLookup_mem c.items k it hit, by simp [hexp]⟩
    rw [cleanup_lookup c now k, if_pos hany]
  · intro k it hit hexp
    have hany : c.items.any (fun y => decide (k = y.1) && y.2.expired now) = false := by
      rw [List.any_eq_false]
      intro y hy
      by_cases hk : k = y.1
      · have hxy : (k, it) = y :=
          nodup_keys_eq_of_mem c.items (k, it) y hnd (alistLookup_mem c.items k it hit) hy hk
        simp [← hxy, hexp]
      · simp [hk]
    rw [cleanup_lookup c now k, if_neg (by simp [hany])]
    exact hit
  · rw [show (c.cleanup now).Count = (c.cleanup now).items.length from rfl, hitems]

/-- C2: with the constructed capacity 10 and a queue currently within capacity,
the queue after one sweep is the suffix of (old queue ++ reclaimed payloads)
that fits in 10 slots, so publishing never has to block; the queue stays within
capacity; when more than 10 payloads are reclaimed in the run, the queue holds
exactly the 10 most recently reclaimed ones; and a publish onto a full queue
first dequeues and drops the oldest element. -/
theorem c2_bounded_notification_drop_oldest (c : Cache) (now : Int)
    (hcap : c.Length = 10) (hq : c.FinishedItems.length ≤ 10) :
    (c.cleanup now).FinishedItems =
      (c.FinishedItems ++
          (c.items.filter (fun e => e.2.expired now)).map (fun e => e.2.data)).drop
        (c.FinishedItems.length +
          ((c.items.filter (fun e => e.2.expired now)).map (fun e => e.2.data)).length - 10)
    ∧ (c.cleanup now).FinishedItems.length ≤ 10
    ∧ (10 < ((c.items.filter (fun e => e.2.expired now)).map (fun e => e.2.data)).length →
        (c.cleanup now).FinishedItems =
          ((c.items.filter (fun e => e.2.expired now)).map (fun e => e.2.data)).drop
            (((c.items.filter (fun e => e.2.expired now)).map (fun e => e.2.data)).length - 10))
    ∧ (∀ (q : List String) (x : String), q.length = 10 →
        pushFinished q 10 x = q.tail ++ [x]) := by
  have hfin := cleanup_finished c now
  rw [hcap] at hfin
  refine ⟨?_, ?_, ?_, ?_⟩
  · rw [hfin]
    exact pushAll_eq_drop 10 (by omega) _ _ hq
  · rw [hfin]
    exact pushAll_length_le 10 (by omega) _ _ hq
  · intro hmany
    rw [hfin]
    exact pushAll_of_many 10 (by omega) _ _ hq (le_of_lt hmany)
  · intro q x hfull
    simp [pushFinished, hfull]

/-- C5: in every state reachable from a fresh cache, each stored item satisfies
`expiresAt = (time of its last touch) + ttl`, where a touch is a `Set` of the
key or a `Get` hit; moreover a single step changes a surviving item's
`expiresAt` only by touching its key, in which case the new value is the
step's `now + ttl`. -/
theorem c5_expiry_touch_invariant :
    (∀ (ttl : Int) (ops : List Op) (k : String) (it : Item),
        alistLookup (runAnnot (NewCache ttl) [] ops).1.items k = some it →
        ∃ t, alistLookup (runAnnot (NewCache ttl) [] ops).2 k = some t ∧
          it.expiresAt = t + ttl)
    ∧ (∀ (c : Cache) (op : Op) (k : String) (it it' : Item),
        alistLookup c.items k = some it →
        alistLookup (c.step op).items k = some it' →
        it'.expiresAt = it.expiresAt ∨
          (op.touchesKey c k = true ∧
            ∃ t, op.time = some t ∧ it'.expiresAt = t + c.ttl)) := by
  constructor
  · intro ttl ops k it hlook
    have hbase : TouchInv (NewCache ttl) [] := by
      intro k₀ it₀ h₀
      simp [NewCache, alistLookup] at h₀
    have hinv := touchInv_runAnnot (NewCache ttl) [] ops hbase
    rcases hinv k it hlook with ⟨t, ht, he⟩
    rw [runAnnot_ttl] at he
    exact ⟨t, ht, he⟩
  · intro c op k it it' h₀ h₁
    cases op with
    | set k' v t =>
      rw [show (c.step (.set k' v t)).items =
          alistInsert c.items k' ⟨v, t + c.ttl⟩ from rfl] at h₁
      by_cases hk : k = k'
      · subst hk
        rw [alistLookup_insert_self] at h₁
        injection h₁ with h₂
        exact Or.inr ⟨by simp [Op.touchesKey], t, rfl, by rw [← h₂]⟩
      · rw [alistLookup_insert_ne c.items k' k _ hk, h₀] at h₁
        injection h₁ with h₂
        exact Or.inl (by rw [← h₂])
    | get k' t =>
      rcases hl : alistLookup c.items k' with _ | item
      · have hstate : c.step (.get k' t) = c := by simp [Cache.step, Cache.Get, hl]
        rw [hstate, h₀] at h₁
        injection h₁ with h₂
        exact Or.inl (by rw [← h₂])
      · by_cases he : item.expired t
        · have hstate : c.step (.get k' t) = c := by simp [Cache.step, Cache.Get, hl, he]
          rw [hstate, h₀] at h₁
          injection h₁ with h₂
          exact Or.inl (by rw [← h₂])
        · have hstate : (c.step (.get k' t)).items =
              alistInsert c.items k' ⟨item.data, t + c.ttl⟩ := by
            simp [Cache.step, Cache.Get, hl, he, Item.touch]
          have hfound : (c.Get k' t).2.1 = true := by simp [Cache.Get, hl, he]
          rw [hstate] at h₁
          by_cases hk : k = k'
          · subst hk
            rw [alistLookup_insert_self] at h₁
            injection h₁ with h₂
            exact Or.inr ⟨by simp [Op.touchesKey, hfound], t, rfl, by rw [← h₂]⟩
          · rw [alistLookup_insert_ne c.items k' k _ hk, h₀] at h₁
            injection h₁ with h₂
            exact Or.inl (by rw [← h₂])
    | del k' =>
      rw [show (c.step (.del k')).items = alistDelete c.items k' from rfl] at h₁
      by_cases hk : k = k'
      · subst hk
        rw [alistLookup_delete_self] at h₁
        exact absurd h₁ (by simp)
      · rw [alistLookup_delete_ne c.items k' k hk, h₀] at h₁
        injection h₁ with h₂
        exact Or.inl (by rw [← h₂])
    | sweep t =>
      rw [show (c.step (.sweep t)).items = (c.cleanup t).items from rfl,
        cleanup_lookup c t k] at h₁
      by_cases hany : c.items.any (fun y => decide (k = y.1) && y.2.expired t) = true
      · rw [if_pos hany] at h₁
        exact absurd h₁ (by simp)
      · rw [if_neg hany, h₀] at h₁
        injection h₁ with h₂
        exact Or.inl (by rw [← h₂])

/-! ### Concrete witnesses -/

/-- Witness for C1: at time 4, key `a` (expires 3) is swept and its payload
published, while `b` (expires 10) survives unchanged. -/
theorem c1_sweep_removes_expired_witness :
    ((([("a", Item.mk "x" 3), ("b", Item.mk "y" 10)] : List (String × Item)).map
        Prod.fst).Nodup)
    ∧ ((Cache.mk 5 [("a", Item.mk "x" 3), ("b", Item.mk "y" 10)] 10 []).cleanup 4).items =
        [("b", Item.mk "y" 10)]
    ∧ ((Cache.mk 5 [("a", Item.mk "x" 3), ("b", Item.mk "y" 10)] 10 []).cleanup
        4).FinishedItems = ["x"] :=
  ⟨by decide,
    ((c1_sweep_removes_expired
        (Cache.mk 5 [("a", Item.mk "x" 3), ("b", Item.mk "y" 10)] 10 []) 4
        (by decide)).1).trans (by decide),
    ((c1_sweep_removes_expired
        (Cache.mk 5 [("a", Item.mk "x" 3), ("b", Item.mk "y" 10)] 10 []) 4
        (by decide)).2.2.2.1).trans (by decide)⟩

/-- Witness for C2: twelve items expire in one sweep with the queue at capacity
10; the queue ends holding exactly the ten most recently reclaimed payloads. -/
theorem c2_bounded_notification_drop_oldest_witness :
    (Cache.mk 1
        [("k1", Item.mk "d1" 2), ("k2", Item.mk "d2" 2), ("k3", Item.mk "d3" 2),
          ("k4", Item.mk "d4" 2), ("k5", Item.mk "d5" 2), ("k6", Item.mk "d6" 2),
          ("k7", Item.mk "d7" 2), ("k8", Item.mk "d8" 2), ("k9", Item.mk "d9" 2),
          ("k10", Item.mk "d10" 2), ("k11", Item.mk "d11" 2), ("k12", Item.mk "d12" 2)]
        10 ["q1", "q2"]).Length = 10
    ∧ (["q1", "q2"] : List String).length ≤ 10
    ∧ 10 < ((([("k1", Item.mk "d1" 2), ("k2", Item.mk "d2" 2), ("k3", Item.mk "d3" 2),
          ("k4", Item.mk "d4" 2), ("k5", Item.mk "d5" 2), ("k6", Item.mk "d6" 2),
          ("k7", Item.mk "d7" 2), ("k8", Item.mk "d8" 2), ("k9", Item.mk "d9" 2),
          ("k10", Item.mk "d10" 2), ("k11", Item.mk "d11" 2),
          ("k12", Item.mk "d12" 2)] : List (String × Item)).filter
            (fun e => e.2.expired 100)).map (fun e => e.2.data)).length
    ∧ ((Cache.mk 1
        [("k1", Item.mk "d1" 2), ("k2", Item.mk "d2" 2), ("k3", Item.mk "d3" 2),
          ("k4", Item.mk "d4" 2), ("k5", Item.mk "d5" 2), ("k6", Item.mk "d6" 2),
          ("k7", Item.mk "d7" 2), ("k8", Item.mk "d8" 2), ("k9", Item.mk "d9" 2),
          ("k10", Item.mk "d10" 2), ("k11", Item.mk "d11" 2), ("k12", Item.mk "d12" 2)]
        10 ["q1", "q2"]).cleanup 100).FinishedItems =
      ["d3", "d4", "d5", "d6", "d7", "d8", "d9", "d10", "d11", "d12"] :=
  ⟨rfl, by decide, by decide,
    ((c2_bounded_notification_drop_oldest
        (Cache.mk 1
          [("k1", Item.mk "d1" 2), ("k2", Item.mk "d2" 2), ("k3", Item.mk "d3" 2),
            ("k4", Item.mk "d4" 2), ("k5", Item.mk "d5" 2), ("k6", Item.mk "d6" 2),
            ("k7", Item.mk "d7" 2), ("k8", Item.mk "d8" 2), ("k9", Item.mk "d9" 2),
            ("k10", Item.mk "d10" 2), ("k11", Item.mk "d11" 2), ("k12", Item.mk "d12" 2)]
          10 ["q1", "q2"]) 100 rfl (by decide)).2.2.1 (by decide)).trans (by decide)⟩

/-- Witness for C3: `Set "a" "w"` at time 0 with TTL 5, then `Get "a"` at time 3
returns `("w", true)` and the stored expiry becomes `3 + 5`. -/
theorem c3_get_hit_refreshes_expiry_witness :
    alistLookup ([("a", Item.mk "x" 10)] : List (String × Item)) "a" =
        some (Item.mk "x" 10)
    ∧ (Item.mk "x" 10).expired 2 = false
    ∧ (0 : Int) ≤ 3
    ∧ (3 : Int) < 0 + (5 : Int)
    ∧ alistLookup (((Cache.mk 5 [("a", Item.mk "x" 10)] 10 []).Set "a" "w" 0).Get
        "a" 3).2.2.items "a" = some (Item.mk "w" (3 + 5)) :=
  ⟨by decide, by decide, by decide, by decide,
    (c3_get_hit_refreshes_expiry (Cache.mk 5 [("a", Item.mk "x" 10)] 10 []) "a" "w"
      (Item.mk "x" 10) 2 0 3 (by decide) (by decide) (by decide) (by decide)).2.2.2⟩

/-- Witness for C4: an item last touched at `t₀ = -2` with TTL 5 (expiry 3) is
reported `found = false` at time 9, both before and after a sweep at time 100. -/
theorem c4_get_miss_no_mutation_witness :
    alistLookup ([("a", Item.mk "x" 3)] : List (String × Item)) "a" =
        some (Item.mk "x" (-2 + 5))
    ∧ (-2 : Int) + 5 < 9
    ∧ ((Cache.mk 5 [("a", Item.mk "x" 3)] 10 []).Get "a" 9).2.1 = false
    ∧ (((Cache.mk 5 [("a", Item.mk "x" 3)] 10 []).cleanup 100).Get "a" 9).2.1 = false :=
  ⟨by decide, by decide,
    ((c4_get_miss_no_mutation (Cache.mk 5 [("a", Item.mk "x" 3)] 10 []) "a" "x" 0 (-2) 9
      100).2.2 (by decide) (by decide)).1,
    ((c4_get_miss_no_mutation (Cache.mk 5 [("a", Item.mk "x" 3)] 10 []) "a" "x" 0 (-2) 9
      100).2.2 (by decide) (by decide)).2⟩

/-- Witness for C5: after `Set "a" "x"` at time 0 and a `Get "a"` hit at time 1
with TTL 5, the stored expiry 6 is the last-touch time 1 plus the TTL. -/
theorem c5_expiry_touch_invariant_witness :
    alistLookup (runAnnot (NewCache 5) []
        [Op.set "a" "x" 0, Op.get "a" 1]).1.items "a" = some (Item.mk "x" 6)
    ∧ ∃ t, alistLookup (runAnnot (NewCache 5) []
        [Op.set "a" "x" 0, Op.get "a" 1]).2 "a" = some t ∧
        (Item.mk "x" 6).expiresAt = t + 5 :=
  ⟨by decide,
    c5_expiry_touch_invariant.1 5 [Op.set "a" "x" 0, Op.get "a" 1] "a" (Item.mk "x" 6)
      (by decide)⟩

/-- Witness for C6: overwriting `Set "a" "1"` with `Set "a" "2"` leaves exactly
one entry for `a`, holding `"2"`, and `Count` is unchanged. -/
theorem c6_set_insert_overwrite_witness :
    ((([] : List (String × Item)).map Prod.fst).Nodup)
    ∧ (((Cache.mk 5 [] 10 []).Set "a" "1" 0).Set "a" "2" 3).items.filter
        (fun e => decide (e.1 = "a")) = [("a", Item.mk "2" (3 + 5))]
    ∧ (((Cache.mk 5 [] 10 []).Set "a" "1" 0).Set "a" "2" 3).Count =
        ((Cache.mk 5 [] 10 []).Set "a" "1" 0).Count :=
  ⟨by decide,
    (c6_set_insert_overwrite (Cache.mk 5 [] 10 []) "a" "v" "1" "2" 0 0 3
      (by decide)).2.2.2.2.1,
    (c6_set_insert_overwrite (Cache.mk 5 [] 10 []) "a" "v" "1" "2" 0 0 3
      (by decide)).2.2.2.2.2⟩

/-- Witness for C9: deleting the absent key `a` is a no-op and leaves `Count`
unchanged. -/
theorem c9_delete_idempotent_witness :
    alistLookup ([("b", Item.mk "y" 10)] : List (String × Item)) "a" = none
    ∧ (Cache.mk 5 [("b", Item.mk "y" 10)] 10 []).Delete "a" =
        Cache.mk 5 [("b", Item.mk "y" 10)] 10 []
    ∧ ((Cache.mk 5 [("b", Item.mk "y" 10)] 10 []).Delete "a").Count =
        (Cache.mk 5 [("b", Item.mk "y" 10)] 10 []).Count :=
  ⟨by decide,
    ((c9_delete_idempotent (Cache.mk 5 [("b", Item.mk "y" 10)] 10 []) "a").2.2.2
      (by decide)).1,
    ((c9_delete_idempotent (Cache.mk 5 [("b", Item.mk "y" 10)] 10 []) "a").2.2.2
      (by decide)).2⟩

end TTLCacheModel
